import Mathlib

/-!
Verification of the canonical-form engine `FasterNeighborsRevisited`
(file faster_neighbors_revisited.py) against its specification.

The engine is embedded shallowly: graphs are lists of node identifiers
plus a list of undirected edges; Python dicts keyed by nodes become total
functions from nodes; the unbounded refinement while-loops become
fuel-indexed recursions, with the fuel shown sufficient; code paths where
Python raises (max() or indexing on an empty collection) become Option
with none for the raising branch.
-/

namespace FNR

/-- A finite undirected graph: node identifiers plus an edge list, each
undirected edge recorded once, in insertion order. -/
structure Graph where
  nodes : List Nat
  edges : List (Nat × Nat)
deriving DecidableEq

/-- Neighbors of a node, read off the edge list (networkx G.neighbors /
mapping_to_neighbors). -/
def nbrs (G : Graph) (n : Nat) : List Nat :=
  G.edges.filterMap (fun e =>
    if e.1 = n then some e.2 else if e.2 = n then some e.1 else none)

/-- Adjacency test (networkx has_edge). -/
def adjb (G : Graph) (a b : Nat) : Bool :=
  G.edges.any (fun e => (e.1 == a && e.2 == b) || (e.1 == b && e.2 == a))

/-- Python max() over a list of integers; 0 is a junk value for [], where the
source raises ValueError (every caller guards against the empty case). -/
def maxList : List Int → Int
  | [] => 0
  | x :: xs => xs.foldl max x

/-- Python max() over a list of naturals (used for BFS distances). -/
def maxListN : List Nat → Nat
  | [] => 0
  | x :: xs => xs.foldl max x

/-- A label map (Python dict keyed by nodes) as a total function. -/
abbrev Lab := Nat → Int

/-- Dict entry assignment. -/
def upd (f : Lab) (n : Nat) (v : Int) : Lab := fun m => if m = n then v else f m

/-- Sort-key comparison used by Python list.sort(key = lambda x: x[1]):
compare pairs by their second component only. -/
def bySnd {α K : Type} [LinearOrder K] (a b : α × K) : Prop := a.2 ≤ b.2

instance instBySndDec {α K : Type} [LinearOrder K] : DecidableRel (@bySnd α K _) :=
  fun a b => inferInstanceAs (Decidable (a.2 ≤ b.2))

instance instBySndTotal {α K : Type} [LinearOrder K] : IsTotal (α × K) bySnd :=
  ⟨fun a b => le_total a.2 b.2⟩

instance instBySndTrans {α K : Type} [LinearOrder K] : IsTrans (α × K) bySnd :=
  ⟨fun _ _ _ h h2 => le_trans h h2⟩

/-- Python list.sort() (ascending, stable). -/
def pysort {K : Type} [LinearOrder K] (l : List K) : List K :=
  l.insertionSort (· ≤ ·)

/-- Python list.sort(key = lambda x: x[1]) (stable). -/
def sortBySnd {α K : Type} [LinearOrder K] (l : List (α × K)) : List (α × K) :=
  l.insertionSort bySnd

/-- get_new_ids_in_order: pair every node with its sort key, in node-list
order, then sort by the key. -/
def get_new_ids_in_order {K : Type} [LinearOrder K] (nodes : List Nat) (key : Nat → K) :
    List (Nat × K) :=
  sortBySnd (nodes.map (fun n => (n, key n)))

/-- The walk inside assign_new_labels_for_sorted_ids: prev holds the previous
key (none initially), next the last numeric label handed out (-1 initially). -/
def assign_go {K : Type} [LinearOrder K] :
    List (Nat × K) → Option K → Int → Lab → List K → Lab × List K
  | [], _, _, acc, defs => (acc, defs)
  | c :: rest, prev, next, acc, defs =>
    if prev = some c.2 then
      assign_go rest (some c.2) next (upd acc c.1 next) defs
    else
      assign_go rest (some c.2) (next + 1) (upd acc c.1 (next + 1)) (defs ++ [c.2])

/-- assign_new_labels_for_sorted_ids: walk the key-sorted (node, key) list,
assigning sequential integer labels from 0, incrementing whenever the key
changes, and recording the sequence of distinct keys (label_definitions). -/
def assign_new_labels_for_sorted_ids {K : Type} [LinearOrder K] (sorted_ids : List (Nat × K)) :
    Lab × List K :=
  assign_go sorted_ids none (-1) (fun _ => 0) []

/-- The loop body of are_new_labels_effectively_the_same, carrying the two
group-identifier dicts (label, first node seen with that label). -/
def eff_same_go (lold lnew : Lab) :
    List Nat → List (Int × Nat) → List (Int × Nat) → Bool
  | [], _, _ => true
  | n :: rest, oldIds, newIds =>
    let ol := lold n
    let nl := lnew n
    let oldIds2 := if (oldIds.lookup ol).isSome then oldIds else oldIds ++ [(ol, n)]
    let newIds2 := if (newIds.lookup nl).isSome then newIds else newIds ++ [(nl, n)]
    if oldIds2.lookup ol = newIds2.lookup nl then eff_same_go lold lnew rest oldIds2 newIds2
    else false

/-- are_new_labels_effectively_the_same: walk the node list and compare, for
each node, the first node carrying its old label against the first node
carrying its new label. -/
def are_new_labels_effectively_the_same (nodes : List Nat) (lold lnew : Lab) : Bool :=
  eff_same_go lold lnew nodes [] []

/-- Plain-mode sort keys: (own label, sorted neighbor labels), ordered the way
Python orders those tuples (lexicographically). -/
abbrev PKey := Int ×ₗ List Int

/-- Plain-mode sort key of one node. -/
def plain_key (G : Graph) (labels : Lab) (n : Nat) : PKey :=
  toLex (labels n, pysort ((nbrs G n).map labels))

/-- The plain-mode refinement fixpoint loop (lines 47-56 with nodewise falsy),
with explicit fuel standing in for the source's unbounded while-loop; the
termination theorem shows fuel (node count + 1) always suffices.  Returns the
stabilized labels (the labels of the round before the fixpoint round, exactly
as the source keeps them) and the final label_definitions. -/
def refine_loop_plain (G : Graph) : Lab → Nat → Option (Lab × List PKey)
  | _, 0 => none
  | labels, fuel + 1 =>
    let ids := get_new_ids_in_order G.nodes (plain_key G labels)
    let r := assign_new_labels_for_sorted_ids ids
    if are_new_labels_effectively_the_same G.nodes labels r.1 then some (labels, r.2)
    else refine_loop_plain G r.1 fuel

/-- The outcome of a plain (nodewise=False) engine instance: stabilized
internal labels, final label_definitions, sorted label_pairings. -/
structure PlainRes where
  internal : Lab
  defs : List PKey
  pairings : List (Int ×ₗ Int)

/-- Construction of a plain (nodewise=False) instance.  On an empty node set
line 23's max() raises, hence none. -/
def plain_instance (G : Graph) (ext : Lab) : Option PlainRes :=
  if G.nodes = [] then none
  else
    (refine_loop_plain G ext (G.nodes.length + 1)).map (fun r =>
      ⟨r.1, r.2, pysort (G.nodes.map (fun n => toLex (r.1 n, ext n)))⟩)

/-- The fresh (edge-)node identifiers allocated by expand_graph's loop,
counting up from one past the given start. -/
def fresh_nodes (next : Nat) : List (Nat × Nat) → List Nat
  | [] => []
  | _ :: rest => (next + 1) :: fresh_nodes (next + 1) rest

/-- The edges contributed by expand_graph's loop: each original edge (u, v)
contributes (u, fresh) and (v, fresh) for its fresh node. -/
def fresh_edges (next : Nat) : List (Nat × Nat) → List (Nat × Nat)
  | [] => []
  | e :: rest => (e.1, next + 1) :: (e.2, next + 1) :: fresh_edges (next + 1) rest

/-- The loop of expand_graph: each original edge (u, v) contributes a fresh
node and the two edges (u, fresh), (v, fresh). -/
def expand_go (edge_label : Int) :
    List (Nat × Nat) → Nat → Graph → Lab → Graph × Lab
  | [], _, acc, lab => (acc, lab)
  | e :: rest, next, acc, lab =>
    expand_go edge_label rest (next + 1)
      ⟨acc.nodes ++ [next + 1], acc.edges ++ [(e.1, next + 1), (e.2, next + 1)]⟩
      (upd lab (next + 1) edge_label)

/-- expand_graph: replace every edge (u, v) by a fresh node, labelled one more
than the maximum existing label, adjacent to u and v; fresh identifiers count
up from the maximum original identifier.  none for the empty graph, where the
source's max() and node_list[-1] raise. -/
def expand_graph (G : Graph) (ext : Lab) : Option (Graph × Lab) :=
  let edge_label := maxList (G.nodes.map ext) + 1
  match pysort G.nodes with
  | [] => none
  | n0 :: ns =>
    some (expand_go edge_label G.edges ((n0 :: ns).getLast (by simp)) ⟨n0 :: ns, []⟩ ext)

/-- higher_than_any_internal_label (line 23): max(node count, max label + 1). -/
def higher_than_any_internal_label (nodes : List Nat) (labels : Lab) : Int :=
  max (nodes.length : Int) (maxList (nodes.map labels) + 1)

/-- The combination of an overlay value with a current label into one ordering
key (line 68). -/
def combine_key (H o l : Int) : Int := o * H + l

/-- Level-synchronous BFS computing shortest-path distances (the embedding of
nx.single_source_shortest_path_length); fuel bounds the number of levels. -/
def bfs_go (G : Graph) : Nat → List (Nat × Nat) → List Nat → Nat → List (Nat × Nat)
  | 0, visited, _, _ => visited
  | fuel + 1, visited, frontier, d =>
    let next := ((frontier.flatMap (nbrs G)).filter (fun m => (visited.lookup m).isNone)).dedup
    match next with
    | [] => visited
    | _ => bfs_go G fuel (visited ++ next.map (fun m => (m, d))) next (d + 1)

/-- Shortest-path distances from s to every reachable node. -/
def sssp (G : Graph) (s : Nat) : List (Nat × Nat) :=
  bfs_go G G.nodes.length [(s, 0)] [s] 1

/-- The head-start discriminator map for node p (line 38): BFS distance from p
(unreachable nodes get one more than the maximum distance) plus the basic
stabilized label scaled by the node count. -/
def head_start (G : Graph) (basic : Lab) (p : Nat) : Lab :=
  let pls := sssp G p
  let max_dist := maxListN (pls.map Prod.snd) + 1
  fun n => (((pls.lookup n).getD max_dist : Nat) : Int) + basic n * (G.nodes.length : Int)

/-- The per-node overlay actually installed by lines 38-44: the head-start map
is built and its maximum taken, the map is then discarded and overwritten by
the external labels; only node p keeps the value maximum + 1. -/
def initial_overlay (G : Graph) (ext basic : Lab) (p : Nat) : Lab :=
  let o1 := head_start G basic p
  let max_value := maxList (G.nodes.map o1)
  let _o2 := upd o1 p (max_value + 1)
  let o3 : Lab := fun n => ext n
  let o4 := upd o3 p (max_value + 1)
  o4

/-- Nodewise sort keys: (own label, plain sub-instance), where a plain
instance is ordered by full_comparison: label_pairings first, then
label_definitions, both lexicographically. -/
abbrev NKey := Int ×ₗ (List (Int ×ₗ Int) ×ₗ List PKey)

/-- One nodewise round of get_new_ids_in_order (lines 67-70): for each node,
fold its overlay and the current labels into a synthetic label map, run a
fresh plain instance over it, key the node by (own label, that instance), and
replace the node's overlay by the instance's stabilized labels. -/
def nodewise_round (G : Graph) (H : Int) (internal : Lab) (overlays : Nat → Lab) :
    Option (Lab × (Nat → Lab)) :=
  let res : Nat → Option PlainRes := fun node =>
    plain_instance G (fun n => combine_key H (overlays node n) (internal n))
  if G.nodes.all (fun node => (res node).isSome) then
    let resv : Nat → PlainRes := fun node => (res node).getD ⟨fun _ => 0, [], []⟩
    let key : Nat → NKey := fun node =>
      toLex (internal node, toLex ((resv node).pairings, (resv node).defs))
    let r := assign_new_labels_for_sorted_ids (get_new_ids_in_order G.nodes key)
    some (r.1, fun node => if node ∈ G.nodes then (resv node).internal else overlays node)
  else none

/-- The nodewise refinement fixpoint loop (lines 47-56 with nodewise truthy);
overlays are replaced on every round, including the final one. -/
def nodewise_loop (G : Graph) (H : Int) :
    Nat → Lab → (Nat → Lab) → Option (Lab × (Nat → Lab))
  | 0, _, _ => none
  | fuel + 1, internal, overlays =>
    match nodewise_round G H internal overlays with
    | none => none
    | some r =>
      if are_new_labels_effectively_the_same G.nodes internal r.1 then
        some (internal, r.2)
      else nodewise_loop G H fuel r.1 r.2

/-- The state of a nodewise ("Master"/"Servant") instance after __init__. -/
structure NWState where
  G0 : Graph
  initial_nodes : List Nat
  G : Graph
  ext : Lab
  internal : Lab
  overlays : Nat → Lab
  Hval : Int

/-- Construction of a nodewise instance (__init__ with nodewise truthy):
expand the graph, compute the basic stabilized coloring, install the per-node
overlays, and run the nodewise refinement loop to its fixpoint. -/
def nodewise_instance (G0 : Graph) (ext0 : Lab) : Option NWState :=
  match expand_graph G0 ext0 with
  | none => none
  | some R =>
    if R.1.nodes = [] then none
    else
      let H := higher_than_any_internal_label R.1.nodes R.2
      match plain_instance R.1 R.2 with
      | none => none
      | some basic =>
        let overlays0 : Nat → Lab := fun p => initial_overlay R.1 R.2 basic.internal p
        match nodewise_loop R.1 H (R.1.nodes.length + 1) R.2 overlays0 with
        | none => none
        | some r => some ⟨G0, G0.nodes, R.1, R.2, r.1, r.2, H⟩

/-- The renumbering pass of further_sort (lines 296-304). -/
def renum_go : List (Nat × (Int ×ₗ Int)) → (Int ×ₗ Int) → Int → List (Nat × Int)
  | [], _, _ => []
  | c :: rest, prev, next =>
    if c.2 = prev then (c.1, next) :: renum_go rest c.2 next
    else (c.1, next + 1) :: renum_go rest c.2 (next + 1)

/-- further_sort: pair every entry's running key with the new label, re-sort
stably by those pairs, and renumber 0, 1, ... incrementing on key change.
none for the empty list, where the source indexes [0] and raises. -/
def further_sort (l : List (Nat × Int)) (f : Lab) : Option (List (Nat × Int)) :=
  let paired : List (Nat × (Int ×ₗ Int)) := l.map (fun p => (p.1, toLex (p.2, f p.1)))
  match sortBySnd paired with
  | [] => none
  | c :: rest => some ((c.1, 0) :: renum_go rest c.2 0)

/-- The tie-scanning while-loop of set_canonical_form (lines 246-256): from
index 0, while the current candidate's key is tied with its successor's, jump
past the whole tied run; stops at the first run of length one (or at the list
length). -/
def scan_ties : Nat → List Int → Nat
  | 0, _ => 0
  | _, [] => 0
  | _, [_] => 0
  | fuel + 1, a :: b :: rest =>
    if a = b then
      let run := (b :: rest).takeWhile (fun x => x == a)
      let rem := (b :: rest).dropWhile (fun x => x == a)
      (1 + run.length) + scan_ties fuel rem
    else 0

/-- The tie test of line 261's second disjunct. -/
def tied_at (l : List (Nat × Int)) (i : Nat) : Bool :=
  match l[i]?, l[i + 1]? with
  | some x, some y => x.2 == y.2
  | _, _ => false

/-- The main selection loop of set_canonical_form (lines 240-274), with fuel
equal to the number of remaining iterations.  Each iteration refines the
remaining candidates by the last chosen node's overlay, scans for ties, on a
tie re-refines through a fresh Servant instance over the original graph, then
appends the selected candidate and removes it from the remaining list. -/
def canon_loop (st : NWState) : Nat → List Nat → List (Nat × Int) → Option (List Nat)
  | 0, final, _ => some final
  | fuel + 1, final, ordering =>
    match final.getLast? with
    | none => none
    | some last =>
      match further_sort ordering (st.overlays last) with
      | none => none
      | some ord1 =>
        let sel := scan_ties ord1.length (ord1.map Prod.snd)
        if sel ≥ ord1.length || tied_at ord1 sel then
          let newLabels : Lab := fun n =>
            if n ∈ final then (List.indexOf n final : Int)
            else ((ord1.lookup n).getD 0) + (final.length : Int)
          match nodewise_instance st.G0 newLabels with
          | none => none
          | some servant =>
            match further_sort ord1 servant.internal with
            | none => none
            | some ord2 =>
              match ord2[0]? with
              | none => none
              | some chosen =>
                canon_loop st fuel (final ++ [chosen.1])
                  (if ord2.length > 1 then ord2.eraseIdx 0 else ord2)
        else
          match ord1[sel]? with
          | none => none
          | some chosen =>
            canon_loop st fuel (final ++ [chosen.1])
              (if ord1.length > 1 then ord1.eraseIdx sel else ord1)

/-- A canonical form: final node order, external labels in that order, and the
strict upper-triangular adjacency matrix of the original graph. -/
structure CanForm where
  order : List Nat
  labels : List Int
  matrix : List (List Nat)
deriving DecidableEq

/-- The upper-triangular adjacency matrix rows (lines 278-286). -/
def matrix_rows (G0 : Graph) : List Nat → List (List Nat)
  | [] => []
  | n :: rest => (rest.map (fun m => if adjb G0 n m then 1 else 0)) :: matrix_rows G0 rest

/-- set_canonical_form (lines 232-290). -/
def set_canonical_form (st : NWState) : Option CanForm :=
  let ordering0 : List (Nat × Int) := st.initial_nodes.map (fun n => (n, 0))
  match further_sort ordering0 st.internal with
  | none => none
  | some ord1 =>
    match ord1 with
    | [] => none
    | c :: rest =>
      match canon_loop st (st.initial_nodes.length - 1) [c.1] rest with
      | none => none
      | some final => some ⟨final, final.map st.ext, matrix_rows st.G0 final⟩

/-- The public canonicalization entry point ("Master" construction followed by
set_canonical_form). -/
def canonicalize (G0 : Graph) (ext0 : Lab) : Option CanForm :=
  match nodewise_instance G0 ext0 with
  | none => none
  | some st => set_canonical_form st

/-- The fields of an engine instance consulted by full_comparison. -/
structure FNRView where
  nodewise : Bool
  ordered_labels : List Int
  matrix : List (List Nat)
  pairings : List (Int ×ₗ Int)
  defs : List PKey

/-- The label_definitions comparison loop (lines 147-155): indexwise
comparison of (label, neighbor-list) entries along the first list.  When the
first list is longer the source raises IndexError; 0 here, unreachable from
the source's call sites, where equal pairings force equal lengths. -/
def defs_cmp : List PKey → List PKey → Int
  | [], _ => 0
  | _ :: _, [] => 0
  | x :: xs, y :: ys => if x < y then -1 else if y < x then 1 else defs_cmp xs ys

/-- full_comparison (lines 109-157). -/
def full_comparison (a b : FNRView) : Int :=
  if !a.nodewise && b.nodewise then -1
  else if a.nodewise && !b.nodewise then 1
  else if a.nodewise then
    if a.ordered_labels < b.ordered_labels then -1
    else if b.ordered_labels < a.ordered_labels then 1
    else if a.matrix < b.matrix then -1
    else if b.matrix < a.matrix then 1
    else 0
  else
    if a.pairings < b.pairings then -1
    else if b.pairings < a.pairings then 1
    else defs_cmp a.defs b.defs

/-- The number of distinct labels a label map puts on a node list. -/
def numClasses (nodes : List Nat) (lab : Lab) : Nat :=
  ((nodes.map lab).dedup).length

/-! ### Helper lemmas -/

lemma foldl_max_le (l : List Int) : ∀ b : Int, b ≤ l.foldl max b ∧ ∀ x ∈ l, x ≤ l.foldl max b := by
  induction l with
  | nil => intro b; exact ⟨le_refl b, by simp⟩
  | cons a l ih =>
    intro b
    refine ⟨le_trans (le_max_left b a) (ih (max b a)).1, ?_⟩
    intro x hx
    rcases List.mem_cons.mp hx with rfl | hx
    · exact le_trans (le_max_right b x) (ih (max b x)).1
    · exact (ih (max b a)).2 x hx

lemma le_maxList {l : List Int} {x : Int} (hx : x ∈ l) : x ≤ maxList l := by
  cases l with
  | nil => cases hx
  | cons a l =>
    rcases List.mem_cons.mp hx with rfl | hx
    · exact (foldl_max_le l x).1
    · exact (foldl_max_le l a).2 x hx

lemma pysort_ne_nil {K : Type} [LinearOrder K] {l : List K} (h : l ≠ []) : pysort l ≠ [] := by
  intro h0
  exact h (List.Perm.eq_nil ((List.perm_insertionSort (· ≤ ·) l).symm.trans (h0 ▸ List.Perm.refl _)))

lemma find?_congr_mem {α : Type} {p q : α → Bool} :
    ∀ {l : List α}, (∀ x ∈ l, p x = q x) → l.find? p = l.find? q := by
  intro l
  induction l with
  | nil => intro _; rfl
  | cons a l ih =>
    intro h
    have ha := h a (by simp)
    rw [List.find?_cons, List.find?_cons, ha]
    cases hq : q a
    · exact ih (fun x hx => h x (List.mem_cons_of_mem _ hx))
    · rfl

lemma find?_append_singleton {p : Nat → Bool} {n : Nat} (hn : p n = true)
    (pre rest : List Nat) :
    (pre ++ n :: rest).find? p = (pre ++ [n]).find? p := by
  rw [List.find?_append, List.find?_append]
  cases h : pre.find? p
  · simp [List.find?_cons, hn]
  · simp

lemma lookup_extend (lab : Lab) (pre : List Nat) (n : Nat) (acc : List (Int × Nat))
    (h : ∀ l : Int, acc.lookup l = pre.find? (fun m => lab m == l)) :
    ∀ l : Int,
      (if (acc.lookup (lab n)).isSome then acc else acc ++ [(lab n, n)]).lookup l =
        (pre ++ [n]).find? (fun m => lab m == l) := by
  intro l
  rw [List.find?_append]
  by_cases hs : (acc.lookup (lab n)).isSome
  · rw [if_pos hs]
    obtain ⟨x, hlk⟩ := Option.isSome_iff_exists.mp hs
    rw [h l]
    cases hfl : pre.find? (fun m => lab m == l) with
    | some y => simp
    | none =>
      by_cases hbe : lab n = l
      · exfalso
        have hget := h (lab n)
        rw [hlk, hbe, hfl] at hget
        exact Option.noConfusion hget
      · simp [List.find?_cons, beq_eq_false_iff_ne.mpr hbe]
  · rw [if_neg hs]
    rw [List.lookup_append, h l]
    have hsingle : List.lookup l [(lab n, n)] = List.find? (fun m => lab m == l) [n] := by
      by_cases hbe : l = lab n
      · simp [List.lookup_cons, List.find?_cons, hbe]
      · simp [List.lookup_cons, List.find?_cons, beq_eq_false_iff_ne.mpr hbe,
          beq_eq_false_iff_ne.mpr (fun hh => hbe hh.symm)]
    rw [hsingle]

lemma eff_same_go_iff (lold lnew : Lab) :
    ∀ (rest pre : List Nat) (accO accN : List (Int × Nat)),
      (∀ l : Int, accO.lookup l = pre.find? (fun m => lold m == l)) →
      (∀ l : Int, accN.lookup l = pre.find? (fun m => lnew m == l)) →
      (eff_same_go lold lnew rest accO accN = true ↔
        ∀ x ∈ rest, (pre ++ rest).find? (fun m => lold m == lold x) =
          (pre ++ rest).find? (fun m => lnew m == lnew x)) := by
  intro rest
  induction rest with
  | nil => intro pre accO accN _ _; simp [eff_same_go]
  | cons n rest ih =>
    intro pre accO accN hO hN
    have hO2 := lookup_extend lold pre n accO hO
    have hN2 := lookup_extend lnew pre n accN hN
    have hOn : (if (accO.lookup (lold n)).isSome then accO else accO ++ [(lold n, n)]).lookup
          (lold n) = (pre ++ n :: rest).find? (fun m => lold m == lold n) := by
      rw [hO2 (lold n), ← find?_append_singleton (beq_self_eq_true (lold n)) pre rest]
    have hNn : (if (accN.lookup (lnew n)).isSome then accN else accN ++ [(lnew n, n)]).lookup
          (lnew n) = (pre ++ n :: rest).find? (fun m => lnew m == lnew n) := by
      rw [hN2 (lnew n), ← find?_append_singleton (beq_self_eq_true (lnew n)) pre rest]
    have hassoc : (pre ++ [n]) ++ rest = pre ++ n :: rest := by simp
    have hstep : eff_same_go lold lnew (n :: rest) accO accN =
        (if (if (accO.lookup (lold n)).isSome then accO else
              accO ++ [(lold n, n)]).lookup (lold n) =
            (if (accN.lookup (lnew n)).isSome then accN else
              accN ++ [(lnew n, n)]).lookup (lnew n) then
          eff_same_go lold lnew rest
            (if (accO.lookup (lold n)).isSome then accO else accO ++ [(lold n, n)])
            (if (accN.lookup (lnew n)).isSome then accN else accN ++ [(lnew n, n)])
        else false) := rfl
    rw [hstep]
    by_cases hc :
        (if (accO.lookup (lold n)).isSome then accO else accO ++ [(lold n, n)]).lookup (lold n) =
          (if (accN.lookup (lnew n)).isSome then accN else accN ++ [(lnew n, n)]).lookup (lnew n)
    · rw [if_pos hc]
      have hrec := ih (pre ++ [n]) _ _ hO2 hN2
      rw [hassoc] at hrec
      rw [hrec, List.forall_mem_cons]
      have hPn : (pre ++ n :: rest).find? (fun m => lold m == lold n) =
          (pre ++ n :: rest).find? (fun m => lnew m == lnew n) := by
        rw [← hOn, ← hNn]; exact hc
      constructor
      · intro hrest; exact ⟨hPn, hrest⟩
      · intro hh; exact hh.2
    · rw [if_neg hc]
      constructor
      · intro hfalse; exact absurd hfalse Bool.false_ne_true
      · intro hall
        exact absurd (hOn.trans ((hall n (List.mem_cons_self n rest)).trans hNn.symm)) hc

lemma rep_find_iff (nodes : List Nat) (lold lnew : Lab) :
    (∀ n ∈ nodes, nodes.find? (fun m => lold m == lold n) =
        nodes.find? (fun m => lnew m == lnew n)) ↔
      (∀ m ∈ nodes, ∀ k ∈ nodes, (lold m = lold k ↔ lnew m = lnew k)) := by
  constructor
  · intro h m hm k hk
    have key : ∀ (f g : Lab),
        (∀ n ∈ nodes, nodes.find? (fun x => f x == f n) = nodes.find? (fun x => g x == g n)) →
        f m = f k → g m = g k := by
      intro f g hfg hfmk
      have e1 := hfg m hm
      have e2 := hfg k hk
      have hpred : (fun x => f x == f m) = (fun x => f x == f k) := by
        funext x; rw [hfmk]
      rw [hpred, e2] at e1
      have hsm : (nodes.find? (fun x => g x == g m)).isSome :=
        List.find?_isSome.mpr ⟨m, hm, beq_self_eq_true (g m)⟩
      cases hfm : nodes.find? (fun x => g x == g m) with
      | none => rw [hfm] at hsm; exact absurd hsm (by simp)
      | some r =>
        have h1 : g r = g m :=
          beq_iff_eq.mp (@List.find?_some _ (fun x => g x == g m) r nodes hfm)
        rw [hfm] at e1
        have h2 : g r = g k :=
          beq_iff_eq.mp (@List.find?_some _ (fun x => g x == g k) r nodes e1)
        rw [← h1, h2]
    constructor
    · exact key lold lnew h
    · exact key lnew lold (fun n hn => (h n hn).symm)
  · intro h n hn
    apply find?_congr_mem
    intro x hx
    by_cases hxy : lold x = lold n
    · have h2 : lnew x = lnew n := (h x hx n hn).mp hxy
      rw [beq_iff_eq.mpr hxy, beq_iff_eq.mpr h2]
    · rw [beq_eq_false_iff_ne.mpr hxy,
        beq_eq_false_iff_ne.mpr (fun hc => hxy ((h x hx n hn).mpr hc))]

lemma indexOf_getElem_of_nodup {K : Type} [DecidableEq K] {l : List K} (h : l.Nodup)
    (i : Nat) (hi : i < l.length) : List.indexOf (l.get ⟨i, hi⟩) l = i := by
  have hmem : l.get ⟨i, hi⟩ ∈ l := l.get_mem i hi
  have hlt : List.indexOf (l.get ⟨i, hi⟩) l < l.length := List.indexOf_lt_length.mpr hmem
  have hsame : l.get ⟨List.indexOf (l.get ⟨i, hi⟩) l, hlt⟩ = l.get ⟨i, hi⟩ :=
    List.indexOf_get hlt
  simp only [List.get_eq_getElem] at hsame
  exact h.getElem_inj_iff.mp hsame

lemma indexOf_getLast_of_strict {K : Type} [LinearOrder K] {l : List K} {p : K}
    (hs : List.Sorted (· < ·) l) (hl : l.getLast? = some p) :
    List.indexOf p l = l.length - 1 ∧ p ∈ l := by
  have hne : l ≠ [] := by
    intro h0; rw [h0] at hl; exact Option.noConfusion hl
  have hp : p = l.getLast hne := by
    rw [List.getLast?_eq_getLast l hne] at hl
    exact (Option.some_inj.mp hl).symm
  have hlen : l.length - 1 < l.length := Nat.sub_lt (List.length_pos.mpr hne) one_pos
  have hgl : l.getLast hne = l.get ⟨l.length - 1, hlen⟩ := by
    rw [List.getLast_eq_getElem]; simp [List.get_eq_getElem]
  constructor
  · rw [hp, hgl]
    exact indexOf_getElem_of_nodup hs.nodup _ hlen
  · rw [hp]
    exact List.getLast_mem hne

lemma assign_go_acc_of_not_mem {K : Type} [LinearOrder K] :
    ∀ (l : List (Nat × K)) (prev : Option K) (next : Int) (acc : Lab) (defs : List K)
      (m : Nat), m ∉ l.map Prod.fst → (assign_go l prev next acc defs).1 m = acc m := by
  intro l
  induction l with
  | nil => intro prev next acc defs m _; rfl
  | cons c rest ih =>
    intro prev next acc defs m hm
    simp only [List.map_cons, List.mem_cons, not_or] at hm
    obtain ⟨h1, h2⟩ := hm
    simp only [assign_go]
    by_cases hp : prev = some c.2
    · rw [if_pos hp, ih _ _ _ _ m h2]; simp [upd, h1]
    · rw [if_neg hp, ih _ _ _ _ m h2]; simp [upd, h1]

lemma assign_go_spec {K : Type} [LinearOrder K] :
    ∀ (l : List (Nat × K)) (p : K) (next : Int) (acc : Lab) (defs : List K),
      List.Sorted (· ≤ ·) (l.map Prod.snd) →
      (∀ x ∈ l, p ≤ x.2) →
      List.Sorted (· < ·) defs →
      (∀ d ∈ defs, d ≤ p) →
      defs.getLast? = some p →
      next = (defs.length : Int) - 1 →
      (∀ x, x ∈ (assign_go l (some p) next acc defs).2 ↔ x ∈ defs ∨ x ∈ l.map Prod.snd) ∧
      List.Sorted (· < ·) (assign_go l (some p) next acc defs).2 ∧
      (∃ t, (assign_go l (some p) next acc defs).2 = defs ++ t) ∧
      ((l.map Prod.fst).Nodup → ∀ q ∈ l,
        (assign_go l (some p) next acc defs).1 q.1 =
          (List.indexOf q.2 (assign_go l (some p) next acc defs).2 : Int)) := by
  intro l
  induction l with
  | nil =>
    intro p next acc defs _ _ hsd _ _ _
    exact ⟨by simp [assign_go], hsd, ⟨[], by simp [assign_go]⟩, by simp⟩
  | cons c rest ih =>
    intro p next acc defs hsort hge hsd hub hlast hnext
    rw [List.map_cons, List.sorted_cons] at hsort
    obtain ⟨hheadle, hsortrest⟩ := hsort
    have hgerest : ∀ x ∈ rest, c.2 ≤ x.2 :=
      fun x hx => hheadle x.2 (List.mem_map_of_mem Prod.snd hx)
    have hdefslen : 1 ≤ defs.length := by
      cases defs with
      | nil => exact absurd hlast (by simp)
      | cons d ds => simp
    by_cases hceq : (some p : Option K) = some c.2
    · -- the key repeats: same numeric label, label_definitions unchanged
      have hpc : p = c.2 := Option.some_inj.mp hceq
      have hunfold : assign_go (c :: rest) (some p) next acc defs =
          assign_go rest (some c.2) next (upd acc c.1 next) defs := by
        simp only [assign_go]; rw [if_pos hceq]
      have hpmem : p ∈ defs := (indexOf_getLast_of_strict hsd hlast).2
      obtain ⟨ihmem, ihsort, ihpre, ihval⟩ :=
        ih c.2 next (upd acc c.1 next) defs hsortrest hgerest hsd
          (hpc ▸ hub) (hpc ▸ hlast) hnext
      rw [hunfold]
      refine ⟨?_, ihsort, ihpre, ?_⟩
      · intro x
        rw [ihmem x]
        simp only [List.map_cons, List.mem_cons]
        constructor
        · rintro (hd | hr)
          · exact Or.inl hd
          · exact Or.inr (Or.inr hr)
        · rintro (hd | (heq | hr))
          · exact Or.inl hd
          · exact Or.inl (heq ▸ hpc ▸ hpmem)
          · exact Or.inr hr
      · intro hnd q hq
        rw [List.map_cons, List.nodup_cons] at hnd
        obtain ⟨hc1, hndrest⟩ := hnd
        rcases List.mem_cons.mp hq with rfl | hqrest
        · rw [assign_go_acc_of_not_mem rest _ _ _ _ q.1 hc1]
          obtain ⟨t, ht⟩ := ihpre
          rw [ht, ← hpc, List.indexOf_append_of_mem hpmem,
            (indexOf_getLast_of_strict hsd hlast).1]
          have hval : upd acc q.1 next q.1 = next := by simp [upd]
          rw [hval, hnext]
          norm_cast
        · exact ihval hndrest q hqrest
    · -- a new key: increment the label and extend label_definitions
      have hpc : p ≠ c.2 := fun h => hceq (by rw [h])
      have hplt : p < c.2 := lt_of_le_of_ne (hge c (List.mem_cons_self c rest)) hpc
      have hunfold : assign_go (c :: rest) (some p) next acc defs =
          assign_go rest (some c.2) (next + 1) (upd acc c.1 (next + 1)) (defs ++ [c.2]) := by
        simp only [assign_go]; rw [if_neg hceq]
      have hsd2 : List.Sorted (· < ·) (defs ++ [c.2]) :=
        List.pairwise_append.mpr ⟨hsd, List.pairwise_singleton _ _,
          fun d hd y hy => by
            rw [List.mem_singleton.mp hy]
            exact lt_of_le_of_lt (hub d hd) hplt⟩
      have hub2 : ∀ d ∈ defs ++ [c.2], d ≤ c.2 := by
        intro d hd
        rcases List.mem_append.mp hd with hd1 | hd2
        · exact le_trans (hub d hd1) (le_of_lt hplt)
        · rw [List.mem_singleton.mp hd2]
      have hnext2 : next + 1 = ((defs ++ [c.2]).length : Int) - 1 := by
        rw [hnext]
        simp [List.length_append]
      obtain ⟨ihmem, ihsort, ihpre, ihval⟩ :=
        ih c.2 (next + 1) (upd acc c.1 (next + 1)) (defs ++ [c.2]) hsortrest hgerest hsd2
          hub2 (List.getLast?_concat defs) hnext2
      rw [hunfold]
      refine ⟨?_, ihsort, ?_, ?_⟩
      · intro x
        rw [ihmem x]
        simp only [List.map_cons, List.mem_cons, List.mem_append, List.mem_singleton]
        tauto
      · obtain ⟨t, ht⟩ := ihpre
        exact ⟨c.2 :: t, by rw [ht]; simp⟩
      · intro hnd q hq
        rw [List.map_cons, List.nodup_cons] at hnd
        obtain ⟨hc1, hndrest⟩ := hnd
        rcases List.mem_cons.mp hq with rfl | hqrest
        · rw [assign_go_acc_of_not_mem rest _ _ _ _ q.1 hc1]
          obtain ⟨t, ht⟩ := ihpre
          have hcmem : q.2 ∈ defs ++ [q.2] := by simp
          rw [ht, List.indexOf_append_of_mem hcmem,
            (indexOf_getLast_of_strict hsd2 (List.getLast?_concat defs)).1]
          have hval : upd acc q.1 (next + 1) q.1 = next + 1 := by simp [upd]
          rw [hval, hnext]
          simp only [List.length_append, List.length_singleton]
          norm_cast
          omega
        · exact ihval hndrest q hqrest

lemma assign_sorted_spec {K : Type} [LinearOrder K] (l : List (Nat × K))
    (hs : List.Sorted (· ≤ ·) (l.map Prod.snd)) :
    (∀ x, x ∈ (assign_new_labels_for_sorted_ids l).2 ↔ x ∈ l.map Prod.snd) ∧
    List.Sorted (· < ·) (assign_new_labels_for_sorted_ids l).2 ∧
    ((l.map Prod.fst).Nodup → ∀ q ∈ l,
      (assign_new_labels_for_sorted_ids l).1 q.1 =
        (List.indexOf q.2 (assign_new_labels_for_sorted_ids l).2 : Int)) := by
  cases l with
  | nil =>
    exact ⟨by simp [assign_new_labels_for_sorted_ids, assign_go],
      by simp [assign_new_labels_for_sorted_ids, assign_go],
      by simp⟩
  | cons c rest =>
    rw [List.map_cons, List.sorted_cons] at hs
    obtain ⟨hheadle, hsortrest⟩ := hs
    have hgerest : ∀ x ∈ rest, c.2 ≤ x.2 :=
      fun x hx => hheadle x.2 (List.mem_map_of_mem Prod.snd hx)
    have hunfold : assign_new_labels_for_sorted_ids (c :: rest) =
        assign_go rest (some c.2) (-1 + 1) (upd (fun _ => 0) c.1 (-1 + 1)) [c.2] := by
      simp only [assign_new_labels_for_sorted_ids, assign_go]
      rw [if_neg (by simp)]
      rfl
    obtain ⟨ihmem, ihsort, ihpre, ihval⟩ :=
      assign_go_spec rest c.2 (-1 + 1) (upd (fun _ => 0) c.1 (-1 + 1)) [c.2] hsortrest hgerest
        (List.sorted_singleton c.2) (by simp) rfl (by norm_num)
    rw [hunfold]
    refine ⟨?_, ihsort, ?_⟩
    · intro x
      rw [ihmem x]
      simp only [List.map_cons, List.mem_cons, List.mem_singleton]
      tauto
    · intro hnd q hq
      rw [List.map_cons, List.nodup_cons] at hnd
      obtain ⟨hc1, hndrest⟩ := hnd
      rcases List.mem_cons.mp hq with rfl | hqrest
      · rw [assign_go_acc_of_not_mem rest _ _ _ _ q.1 hc1]
        obtain ⟨t, ht⟩ := ihpre
        have hcmem : q.2 ∈ [q.2] := by simp
        rw [ht, List.indexOf_append_of_mem hcmem]
        simp [upd, List.indexOf_cons_self]
      · exact ihval hndrest q hqrest

lemma eff_same_characterization (nodes : List Nat) (lold lnew : Lab) :
    are_new_labels_effectively_the_same nodes lold lnew = true ↔
      ∀ m ∈ nodes, ∀ k ∈ nodes, (lold m = lold k ↔ lnew m = lnew k) := by
  unfold are_new_labels_effectively_the_same
  rw [eff_same_go_iff lold lnew nodes [] [] [] (by simp) (by simp)]
  simpa using rep_find_iff nodes lold lnew

/-! ### Claim C5 (confirmed): the fixpoint test compares induced partitions -/

/-- C5: are_new_labels_effectively_the_same returns true exactly when the old
and new labelings induce the same partition of the node list, independently of
the numeric label values. -/
theorem eff_same_iff_partitions (nodes : List Nat) (lold lnew : Lab) :
    are_new_labels_effectively_the_same nodes lold lnew = true ↔
      ∀ m ∈ nodes, ∀ k ∈ nodes, (lold m = lold k ↔ lnew m = lnew k) :=
  eff_same_characterization nodes lold lnew

/-- Witness for eff_same_iff_partitions on a concrete node list: relabeling
0,0,2 as 5,5,9 keeps the grouping, so the test accepts. -/
theorem eff_same_iff_partitions_witness :
    are_new_labels_effectively_the_same [0, 1, 2] (fun n => if n < 2 then 0 else 2)
        (fun n => if n < 2 then 5 else 9) = true :=
  (eff_same_iff_partitions [0, 1, 2] _ _).mpr (by decide)

lemma numClasses_eq (nodes : List Nat) (f : Lab) :
    numClasses nodes f = (nodes.map f).toFinset.card := by
  unfold numClasses
  exact (List.card_toFinset _).symm

lemma numClasses_le (nodes : List Nat) (lab : Lab) : numClasses nodes lab ≤ nodes.length := by
  unfold numClasses
  calc ((nodes.map lab).dedup).length ≤ (nodes.map lab).length :=
        (List.dedup_sublist _).length_le
    _ = nodes.length := List.length_map _ _

lemma classes_lt_of_refines (nodes : List Nat) (f g : Lab)
    (href : ∀ m ∈ nodes, ∀ k ∈ nodes, f m = f k → g m = g k)
    (m k : Nat) (hm : m ∈ nodes) (hk : k ∈ nodes) (hg : g m = g k) (hf : f m ≠ f k) :
    numClasses nodes g < numClasses nodes f := by
  classical
  rw [numClasses_eq, numClasses_eq]
  let φ : Int → Int := fun v =>
    if h : ∃ x, x ∈ nodes ∧ f x = v then g h.choose else v
  have hφval : ∀ x ∈ nodes, φ (f x) = g x := by
    intro x hx
    have hex : ∃ y, y ∈ nodes ∧ f y = f x := ⟨x, hx, rfl⟩
    simp only [φ, dif_pos hex]
    exact href _ hex.choose_spec.1 _ hx hex.choose_spec.2
  have himg : (nodes.map g).toFinset = ((nodes.map f).toFinset).image φ := by
    ext y
    simp only [List.mem_toFinset, List.mem_map, Finset.mem_image]
    constructor
    · rintro ⟨x, hx, rfl⟩
      exact ⟨f x, ⟨x, hx, rfl⟩, hφval x hx⟩
    · rintro ⟨v, ⟨x, hx, rfl⟩, rfl⟩
      exact ⟨x, hx, (hφval x hx).symm⟩
  have hfm : f m ∈ (nodes.map f).toFinset := by
    rw [List.mem_toFinset]
    exact List.mem_map_of_mem f hm
  have hfk : f k ∈ (nodes.map f).toFinset := by
    rw [List.mem_toFinset]
    exact List.mem_map_of_mem f hk
  have hφeq : φ (f m) = φ (f k) := by rw [hφval m hm, hφval k hk, hg]
  have herase : ((nodes.map f).toFinset).image φ =
      (((nodes.map f).toFinset).erase (f m)).image φ := by
    ext y
    simp only [Finset.mem_image, Finset.mem_erase]
    constructor
    · rintro ⟨v, hv, rfl⟩
      by_cases hva : v = f m
      · exact ⟨f k, ⟨Ne.symm hf, hfk⟩, by rw [← hφeq, hva]⟩
      · exact ⟨v, ⟨hva, hv⟩, rfl⟩
    · rintro ⟨v, ⟨_, hv⟩, rfl⟩
      exact ⟨v, hv, rfl⟩
  rw [himg, herase]
  calc ((((nodes.map f).toFinset).erase (f m)).image φ).card
      ≤ (((nodes.map f).toFinset).erase (f m)).card := Finset.card_image_le
    _ < ((nodes.map f).toFinset).card := by
        rw [Finset.card_erase_of_mem hfm]
        exact Nat.sub_lt (Finset.card_pos.mpr ⟨f m, hfm⟩) one_pos

lemma assign_spec_main {K : Type} [LinearOrder K] (nodes : List Nat) (key : Nat → K)
    (hnd : nodes.Nodup) :
    (∀ m ∈ nodes,
      0 ≤ (assign_new_labels_for_sorted_ids (get_new_ids_in_order nodes key)).1 m ∧
      (assign_new_labels_for_sorted_ids (get_new_ids_in_order nodes key)).1 m <
        ((assign_new_labels_for_sorted_ids (get_new_ids_in_order nodes key)).2.length : Int)) ∧
    (assign_new_labels_for_sorted_ids (get_new_ids_in_order nodes key)).2.length ≤
      nodes.length ∧
    (∀ m ∈ nodes, ∀ k ∈ nodes,
      ((assign_new_labels_for_sorted_ids (get_new_ids_in_order nodes key)).1 m =
        (assign_new_labels_for_sorted_ids (get_new_ids_in_order nodes key)).1 k ↔
        key m = key k)) ∧
    (∀ v : Nat, v < (assign_new_labels_for_sorted_ids (get_new_ids_in_order nodes key)).2.length →
      ∃ m ∈ nodes,
        (assign_new_labels_for_sorted_ids (get_new_ids_in_order nodes key)).1 m = (v : Int)) ∧
    List.Sorted (· < ·) (assign_new_labels_for_sorted_ids (get_new_ids_in_order nodes key)).2 ∧
    (∀ x, x ∈ (assign_new_labels_for_sorted_ids (get_new_ids_in_order nodes key)).2 ↔
      x ∈ nodes.map key) := by
  have hperm : List.Perm (get_new_ids_in_order nodes key) (nodes.map (fun n => (n, key n))) :=
    List.perm_insertionSort bySnd _
  have hsortedp : List.Sorted bySnd (get_new_ids_in_order nodes key) :=
    List.sorted_insertionSort bySnd _
  have hs : List.Sorted (· ≤ ·) ((get_new_ids_in_order nodes key).map Prod.snd) :=
    List.pairwise_map.mpr hsortedp
  have hfst : List.Perm ((get_new_ids_in_order nodes key).map Prod.fst) nodes := by
    have h2 := hperm.map Prod.fst
    rw [List.map_map] at h2
    simpa [Function.comp_def] using h2
  have hndf : ((get_new_ids_in_order nodes key).map Prod.fst).Nodup :=
    hfst.nodup_iff.mpr hnd
  have hsnd : List.Perm ((get_new_ids_in_order nodes key).map Prod.snd) (nodes.map key) := by
    have h2 := hperm.map Prod.snd
    rw [List.map_map] at h2
    simpa [Function.comp_def] using h2
  have hmemids : ∀ m ∈ nodes, (m, key m) ∈ get_new_ids_in_order nodes key := by
    intro m hm
    exact hperm.mem_iff.mpr (List.mem_map_of_mem (fun n => (n, key n)) hm)
  obtain ⟨amem, asort, aval⟩ := assign_sorted_spec (get_new_ids_in_order nodes key) hs
  have amem2 : ∀ x, x ∈ (assign_new_labels_for_sorted_ids (get_new_ids_in_order nodes key)).2 ↔
      x ∈ nodes.map key :=
    fun x => (amem x).trans hsnd.mem_iff
  have avalm : ∀ m ∈ nodes,
      (assign_new_labels_for_sorted_ids (get_new_ids_in_order nodes key)).1 m =
        (List.indexOf (key m)
          (assign_new_labels_for_sorted_ids (get_new_ids_in_order nodes key)).2 : Int) :=
    fun m hm => aval hndf (m, key m) (hmemids m hm)
  have hkeymem : ∀ m ∈ nodes,
      key m ∈ (assign_new_labels_for_sorted_ids (get_new_ids_in_order nodes key)).2 :=
    fun m hm => (amem2 (key m)).mpr (List.mem_map_of_mem key hm)
  refine ⟨?_, ?_, ?_, ?_, asort, amem2⟩
  · intro m hm
    rw [avalm m hm]
    constructor
    · exact Int.ofNat_nonneg _
    · exact_mod_cast List.indexOf_lt_length.mpr (hkeymem m hm)
  · have handup : (assign_new_labels_for_sorted_ids (get_new_ids_in_order nodes key)).2.Nodup :=
      asort.nodup
    have hsubs : (assign_new_labels_for_sorted_ids (get_new_ids_in_order nodes key)).2.toFinset ⊆
        (nodes.map key).toFinset := by
      intro x hx
      rw [List.mem_toFinset] at hx ⊢
      exact (amem2 x).mp hx
    have h1 := List.toFinset_card_of_nodup handup
    have h2 := Finset.card_le_card hsubs
    have h3 := List.toFinset_card_le (nodes.map key)
    have h4 : (nodes.map key).length = nodes.length := List.length_map _ _
    omega
  · intro m hm k hk
    rw [avalm m hm, avalm k hk]
    rw [Int.ofNat_inj]
    exact List.indexOf_inj (hkeymem m hm) (hkeymem k hk)
  · intro v hv
    have hget : (assign_new_labels_for_sorted_ids (get_new_ids_in_order nodes key)).2.get
        ⟨v, hv⟩ ∈ nodes.map key := by
      rw [← amem2]
      exact List.get_mem _ v hv
    obtain ⟨m, hm, hkm⟩ := List.mem_map.mp hget
    refine ⟨m, hm, ?_⟩
    rw [avalm m hm, hkm]
    rw [indexOf_getElem_of_nodup asort.nodup v hv]

lemma refine_step_strict {K : Type} [LinearOrder K] (nodes : List Nat) (hnd : nodes.Nodup)
    (lab : Lab) (key : Nat → K)
    (hkey : ∀ m k : Nat, key m = key k → lab m = lab k)
    (hfail : are_new_labels_effectively_the_same nodes lab
        (assign_new_labels_for_sorted_ids (get_new_ids_in_order nodes key)).1 = false) :
    numClasses nodes lab <
      numClasses nodes (assign_new_labels_for_sorted_ids (get_new_ids_in_order nodes key)).1 := by
  have hiff := (assign_spec_main nodes key hnd).2.2.1
  have hchar := eff_same_characterization nodes lab
    (assign_new_labels_for_sorted_ids (get_new_ids_in_order nodes key)).1
  have hnot : ¬ ∀ m ∈ nodes, ∀ k ∈ nodes,
      (lab m = lab k ↔
        (assign_new_labels_for_sorted_ids (get_new_ids_in_order nodes key)).1 m =
          (assign_new_labels_for_sorted_ids (get_new_ids_in_order nodes key)).1 k) := by
    intro hall
    have hres := hchar.mpr hall
    rw [hfail] at hres
    exact Bool.noConfusion hres
  push_neg at hnot
  obtain ⟨m, hm, k, hk, hniff⟩ := hnot
  have hrefines : ∀ a ∈ nodes, ∀ b ∈ nodes,
      (assign_new_labels_for_sorted_ids (get_new_ids_in_order nodes key)).1 a =
        (assign_new_labels_for_sorted_ids (get_new_ids_in_order nodes key)).1 b →
      lab a = lab b := by
    intro a ha b hb hab
    exact hkey a b ((hiff a ha b hb).mp hab)
  rcases hniff with ⟨h2, h1⟩ | ⟨h2, h1⟩
  · exact classes_lt_of_refines nodes
      (assign_new_labels_for_sorted_ids (get_new_ids_in_order nodes key)).1 lab
      hrefines m k hm hk h2 h1
  · exact absurd (hrefines m hm k hk h1) h2

lemma refine_loop_plain_isSome (G : Graph) (hnd : G.nodes.Nodup) :
    ∀ (fuel : Nat) (lab : Lab), G.nodes.length + 1 ≤ fuel + numClasses G.nodes lab →
      (refine_loop_plain G lab fuel).isSome = true := by
  intro fuel
  induction fuel with
  | zero =>
    intro lab h
    exact absurd (numClasses_le G.nodes lab) (by omega)
  | succ fuel ih =>
    intro lab h
    have hunfold : refine_loop_plain G lab (fuel + 1) =
        (if are_new_labels_effectively_the_same G.nodes lab
            (assign_new_labels_for_sorted_ids
              (get_new_ids_in_order G.nodes (plain_key G lab))).1 then
          some (lab, (assign_new_labels_for_sorted_ids
            (get_new_ids_in_order G.nodes (plain_key G lab))).2)
        else refine_loop_plain G
          (assign_new_labels_for_sorted_ids
            (get_new_ids_in_order G.nodes (plain_key G lab))).1 fuel) := rfl
    rw [hunfold]
    by_cases heff : are_new_labels_effectively_the_same G.nodes lab
        (assign_new_labels_for_sorted_ids
          (get_new_ids_in_order G.nodes (plain_key G lab))).1 = true
    · rw [if_pos heff]; rfl
    · have heff2 : are_new_labels_effectively_the_same G.nodes lab
          (assign_new_labels_for_sorted_ids
            (get_new_ids_in_order G.nodes (plain_key G lab))).1 = false := by
        cases hb : are_new_labels_effectively_the_same G.nodes lab
            (assign_new_labels_for_sorted_ids
              (get_new_ids_in_order G.nodes (plain_key G lab))).1
        · rfl
        · exact absurd hb heff
      rw [if_neg heff]
      apply ih
      have hkeyp : ∀ m k : Nat, plain_key G lab m = plain_key G lab k → lab m = lab k := by
        intro m k hmk
        unfold plain_key at hmk
        have h2 := toLex_inj.mp hmk
        exact congrArg Prod.fst h2
      have hstrict := refine_step_strict G.nodes hnd lab (plain_key G lab) hkeyp heff2
      omega

/-! ### Claim C6 (confirmed): termination of the refinement loop -/

/-- C6: whenever the fixpoint test fails, the number of distinct internal
labels strictly increases (for any round whose sort key begins with the
current label, which covers both the plain and the nodewise rounds); that
number never exceeds the node count; hence the plain refinement loop reaches
its fixpoint within node count + 1 rounds of fuel. -/
theorem refinement_loop_terminates (G : Graph) (hnd : G.nodes.Nodup) :
    (∀ (K : Type) (_ : LinearOrder K) (lab : Lab) (aux : Nat → K),
      are_new_labels_effectively_the_same G.nodes lab
        (assign_new_labels_for_sorted_ids
          (get_new_ids_in_order G.nodes (fun n => toLex (lab n, aux n)))).1 = false →
      numClasses G.nodes lab <
        numClasses G.nodes
          (assign_new_labels_for_sorted_ids
            (get_new_ids_in_order G.nodes (fun n => toLex (lab n, aux n)))).1) ∧
    (∀ lab : Lab, numClasses G.nodes lab ≤ G.nodes.length) ∧
    (∀ lab : Lab, (refine_loop_plain G lab (G.nodes.length + 1)).isSome = true) := by
  refine ⟨?_, fun lab => numClasses_le G.nodes lab, ?_⟩
  · intro K hK lab aux hfail
    have hkey : ∀ m k : Nat,
        (fun n => toLex (lab n, aux n)) m = (fun n => toLex (lab n, aux n)) k →
        lab m = lab k := by
      intro m k hmk
      have h2 := toLex_inj.mp hmk
      exact congrArg Prod.fst h2
    exact refine_step_strict G.nodes hnd lab _ hkey hfail
  · intro lab
    exact refine_loop_plain_isSome G hnd (G.nodes.length + 1) lab (by omega)

/-- Witness for refinement_loop_terminates: on the path 0-1-2 with all-zero
labels the plain loop reaches its fixpoint within 4 rounds of fuel. -/
theorem refinement_loop_terminates_witness :
    (refine_loop_plain ⟨[0, 1, 2], [(0, 1), (1, 2)]⟩ (fun _ => 0)
      ((⟨[0, 1, 2], [(0, 1), (1, 2)]⟩ : Graph).nodes.length + 1)).isSome = true :=
  (refinement_loop_terminates ⟨[0, 1, 2], [(0, 1), (1, 2)]⟩ (by decide)).2.2 (fun _ => 0)

/-! ### Claim C10 (confirmed): invariants of one relabeling round -/

/-- C10: for a refinement round over distinct nodes, the new labels form the
contiguous range 0..k-1 where k is the number of label_definitions entries;
k is at most the node count; two nodes get equal labels exactly when their
sort keys are equal; and label_definitions lists each distinct key once, in
ascending key order. -/
theorem assign_round_invariants {K : Type} [LinearOrder K] (nodes : List Nat)
    (key : Nat → K) (hnd : nodes.Nodup) :
    (∀ m ∈ nodes,
      0 ≤ (assign_new_labels_for_sorted_ids (get_new_ids_in_order nodes key)).1 m ∧
      (assign_new_labels_for_sorted_ids (get_new_ids_in_order nodes key)).1 m <
        ((assign_new_labels_for_sorted_ids (get_new_ids_in_order nodes key)).2.length : Int)) ∧
    (assign_new_labels_for_sorted_ids (get_new_ids_in_order nodes key)).2.length ≤
      nodes.length ∧
    (∀ m ∈ nodes, ∀ k ∈ nodes,
      ((assign_new_labels_for_sorted_ids (get_new_ids_in_order nodes key)).1 m =
        (assign_new_labels_for_sorted_ids (get_new_ids_in_order nodes key)).1 k ↔
        key m = key k)) ∧
    (∀ v : Nat, v < (assign_new_labels_for_sorted_ids (get_new_ids_in_order nodes key)).2.length →
      ∃ m ∈ nodes,
        (assign_new_labels_for_sorted_ids (get_new_ids_in_order nodes key)).1 m = (v : Int)) ∧
    List.Sorted (· < ·) (assign_new_labels_for_sorted_ids (get_new_ids_in_order nodes key)).2 ∧
    (∀ x, x ∈ (assign_new_labels_for_sorted_ids (get_new_ids_in_order nodes key)).2 ↔
      x ∈ nodes.map key) :=
  assign_spec_main nodes key hnd

/-- Witness for assign_round_invariants at a concrete key function. -/
theorem assign_round_invariants_witness :
    (assign_new_labels_for_sorted_ids
      (get_new_ids_in_order [0, 1, 2] (fun n => ((n % 2 : Nat) : Int)))).2.length ≤
      ([0, 1, 2] : List Nat).length :=
  (assign_round_invariants [0, 1, 2] (fun n => ((n % 2 : Nat) : Int)) (by decide)).2.1


lemma expand_go_graph (el : Int) :
    ∀ (es : List (Nat × Nat)) (next : Nat) (acc : Graph) (lab : Lab),
      (expand_go el es next acc lab).1.nodes = acc.nodes ++ fresh_nodes next es ∧
      (expand_go el es next acc lab).1.edges = acc.edges ++ fresh_edges next es ∧
      ∀ m : Nat, (expand_go el es next acc lab).2 m =
        if m ∈ fresh_nodes next es then el else lab m := by
  intro es
  induction es with
  | nil => intro next acc lab; simp [expand_go, fresh_nodes, fresh_edges]
  | cons e rest ih =>
    intro next acc lab
    obtain ⟨ihn, ihe, ihl⟩ := ih (next + 1)
      ⟨acc.nodes ++ [next + 1], acc.edges ++ [(e.1, next + 1), (e.2, next + 1)]⟩
      (upd lab (next + 1) el)
    refine ⟨?_, ?_, ?_⟩
    · rw [show expand_go el (e :: rest) next acc lab = expand_go el rest (next + 1)
        ⟨acc.nodes ++ [next + 1], acc.edges ++ [(e.1, next + 1), (e.2, next + 1)]⟩
        (upd lab (next + 1) el) from rfl, ihn]
      simp [fresh_nodes]
    · rw [show expand_go el (e :: rest) next acc lab = expand_go el rest (next + 1)
        ⟨acc.nodes ++ [next + 1], acc.edges ++ [(e.1, next + 1), (e.2, next + 1)]⟩
        (upd lab (next + 1) el) from rfl, ihe]
      simp [fresh_edges]
    · intro m
      rw [show expand_go el (e :: rest) next acc lab = expand_go el rest (next + 1)
        ⟨acc.nodes ++ [next + 1], acc.edges ++ [(e.1, next + 1), (e.2, next + 1)]⟩
        (upd lab (next + 1) el) from rfl, ihl m]
      by_cases h1 : m ∈ fresh_nodes (next + 1) rest
      · simp [h1, fresh_nodes]
      · by_cases h2 : m = next + 1
        · simp [h1, h2, upd, fresh_nodes]
        · simp [h1, h2, upd, fresh_nodes]

lemma mem_fresh_nodes :
    ∀ (es : List (Nat × Nat)) (next m : Nat),
      m ∈ fresh_nodes next es ↔ ∃ i, i < es.length ∧ m = next + 1 + i := by
  intro es
  induction es with
  | nil => intro next m; simp [fresh_nodes]
  | cons e rest ih =>
    intro next m
    simp only [fresh_nodes, List.mem_cons, ih (next + 1) m, List.length_cons]
    constructor
    · rintro (rfl | ⟨i, hi, rfl⟩)
      · exact ⟨0, by omega, by omega⟩
      · exact ⟨i + 1, by omega, by omega⟩
    · rintro ⟨i, hi, rfl⟩
      cases i with
      | zero => exact Or.inl (by omega)
      | succ j => exact Or.inr ⟨j, by omega, by omega⟩

lemma fresh_nodes_gt {es : List (Nat × Nat)} {next m : Nat}
    (h : m ∈ fresh_nodes next es) : next < m := by
  obtain ⟨i, _, rfl⟩ := (mem_fresh_nodes es next m).mp h
  omega

lemma nbrs_fresh_nil :
    ∀ (es : List (Nat × Nat)) (next f : Nat), f ≤ next →
      (∀ e ∈ es, e.1 ≠ f ∧ e.2 ≠ f) →
      (fresh_edges next es).filterMap (fun e =>
        if e.1 = f then some e.2 else if e.2 = f then some e.1 else none) = [] := by
  intro es
  induction es with
  | nil => intro next f _ _; rfl
  | cons e rest ih =>
    intro next f hf hends
    obtain ⟨h1, h2⟩ := hends e (List.mem_cons_self e rest)
    have h3 : next + 1 ≠ f := by omega
    simp only [fresh_edges, List.filterMap_cons]
    rw [if_neg h1, if_neg h3, if_neg h2, if_neg h3]
    exact ih (next + 1) f (by omega) (fun x hx => hends x (List.mem_cons_of_mem e hx))

lemma nbrs_fresh :
    ∀ (es : List (Nat × Nat)) (next : Nat) (i : Nat) (hi : i < es.length),
      (∀ e ∈ es, e.1 ≤ next ∧ e.2 ≤ next) →
      (fresh_edges next es).filterMap (fun e =>
        if e.1 = next + 1 + i then some e.2 else if e.2 = next + 1 + i then some e.1
        else none) = [(es.get ⟨i, hi⟩).1, (es.get ⟨i, hi⟩).2] := by
  intro es
  induction es with
  | nil => intro next i hi; exact absurd hi (by simp)
  | cons e rest ih =>
    intro next i hi hends
    obtain ⟨he1, he2⟩ := hends e (List.mem_cons_self e rest)
    cases i with
    | zero =>
      have hne1 : e.1 ≠ next + 1 + 0 := by omega
      have hne2 : e.2 ≠ next + 1 + 0 := by omega
      have hrest := nbrs_fresh_nil rest (next + 1) (next + 1 + 0) (by omega)
        (fun x hx => ⟨by have := (hends x (List.mem_cons_of_mem e hx)).1; omega,
                      by have := (hends x (List.mem_cons_of_mem e hx)).2; omega⟩)
      simp only [fresh_edges, List.filterMap_cons]
      simp [hne1, hne2, hrest]
    | succ j =>
      have hne1 : e.1 ≠ next + 1 + (j + 1) := by omega
      have hne2 : e.2 ≠ next + 1 + (j + 1) := by omega
      have hne3 : next + 1 ≠ next + 1 + (j + 1) := by omega
      have hj : j < rest.length := by
        simp only [List.length_cons] at hi
        omega
      have hrec := ih (next + 1) j hj
        (fun x hx => ⟨by have := (hends x (List.mem_cons_of_mem e hx)).1; omega,
                      by have := (hends x (List.mem_cons_of_mem e hx)).2; omega⟩)
      rw [show next + 1 + 1 + j = next + 1 + (j + 1) from by omega] at hrec
      simp only [fresh_edges, List.filterMap_cons]
      simp [hne1, hne2, hne3, hrec]

lemma adjb_fresh_orig :
    ∀ (es : List (Nat × Nat)) (next u v : Nat), u ≤ next → v ≤ next →
      ((fresh_edges next es).any
        (fun e => (e.1 == u && e.2 == v) || (e.1 == v && e.2 == u))) = false := by
  intro es
  induction es with
  | nil => intro next u v _ _; rfl
  | cons e rest ih =>
    intro next u v hu hv
    have h1 : (next + 1 == v) = false := by
      rw [beq_eq_false_iff_ne]; omega
    have h2 : (next + 1 == u) = false := by
      rw [beq_eq_false_iff_ne]; omega
    simp only [fresh_edges, List.any_cons, h1, h2, Bool.and_false, Bool.or_false,
      Bool.false_or]
    exact ih (next + 1) u v (by omega) (by omega)

lemma sorted_le_getLast :
    ∀ {l : List Nat}, List.Sorted (· ≤ ·) l → ∀ (hne : l ≠ []) (x : Nat), x ∈ l →
      x ≤ l.getLast hne := by
  intro l
  induction l with
  | nil => intro _ hne; exact absurd rfl hne
  | cons a rest ih =>
    intro hs hne x hx
    rw [List.sorted_cons] at hs
    obtain ⟨hall, hrest⟩ := hs
    cases rest with
    | nil =>
      simp only [List.mem_cons, List.not_mem_nil, or_false] at hx
      rw [hx]
      simp [List.getLast_singleton]
    | cons b rest2 =>
      have hne2 : b :: rest2 ≠ [] := by simp
      rw [List.getLast_cons hne2]
      rcases List.mem_cons.mp hx with rfl | hx2
      · exact le_trans (hall b (by simp)) (ih hrest hne2 b (by simp))
      · exact ih hrest hne2 x hx2

/-! ### Claim C7 (confirmed): the graph expansion -/

/-- C7: on a non-empty graph whose edge endpoints are nodes, expand_graph
succeeds; every original node is kept with its original label; the i-th edge
(u, v) is replaced by a fresh node, strictly above every original identifier,
labelled one more than the maximum original label, whose neighbors are
exactly u and v; and no two original nodes are adjacent in the result. -/
theorem expand_graph_spec (G : Graph) (ext : Lab) (hne : G.nodes ≠ [])
    (hmem : ∀ e ∈ G.edges, e.1 ∈ G.nodes ∧ e.2 ∈ G.nodes) :
    ∃ R, expand_graph G ext = some R ∧
      (∀ n ∈ G.nodes, n ∈ R.1.nodes ∧ R.2 n = ext n) ∧
      (∀ i, (hi : i < G.edges.length) → ∃ f,
        f ∈ R.1.nodes ∧ (∀ x ∈ G.nodes, x < f) ∧
        R.2 f = maxList (G.nodes.map ext) + 1 ∧
        nbrs R.1 f = [(G.edges.get ⟨i, hi⟩).1, (G.edges.get ⟨i, hi⟩).2]) ∧
      (∀ u ∈ G.nodes, ∀ v ∈ G.nodes, adjb R.1 u v = false) := by
  obtain ⟨n0, ns, hps⟩ : ∃ n0 ns, pysort G.nodes = n0 :: ns := by
    cases h : pysort G.nodes with
    | nil => exact absurd h (pysort_ne_nil hne)
    | cons n0 ns => exact ⟨n0, ns, rfl⟩
  have hexp : expand_graph G ext = some (expand_go (maxList (G.nodes.map ext) + 1) G.edges
      ((n0 :: ns).getLast (by simp)) ⟨n0 :: ns, []⟩ ext) := by
    unfold expand_graph
    rw [hps]
  refine ⟨_, hexp, ?_⟩
  have hsorted : List.Sorted (· ≤ ·) (n0 :: ns) := by
    rw [← hps]
    exact List.sorted_insertionSort _ G.nodes
  have hmemsort : ∀ x, x ∈ G.nodes ↔ x ∈ n0 :: ns := by
    intro x
    rw [← hps]
    exact (List.perm_insertionSort _ G.nodes).symm.mem_iff
  have hstart : ∀ x ∈ G.nodes, x ≤ (n0 :: ns).getLast (by simp) := by
    intro x hx
    exact sorted_le_getLast hsorted (by simp) x ((hmemsort x).mp hx)
  obtain ⟨hnodes, hedges, hlab⟩ := expand_go_graph (maxList (G.nodes.map ext) + 1) G.edges
    ((n0 :: ns).getLast (by simp)) ⟨n0 :: ns, []⟩ ext
  have hends : ∀ e ∈ G.edges, e.1 ≤ (n0 :: ns).getLast (by simp) ∧
      e.2 ≤ (n0 :: ns).getLast (by simp) := by
    intro e he
    exact ⟨hstart e.1 (hmem e he).1, hstart e.2 (hmem e he).2⟩
  refine ⟨?_, ?_, ?_⟩
  · intro n hn
    constructor
    · rw [hnodes]
      exact List.mem_append_left _ ((hmemsort n).mp hn)
    · rw [hlab n, if_neg]
      intro hfresh
      exact absurd (hstart n hn) (by have := fresh_nodes_gt hfresh; omega)
  · intro i hi
    refine ⟨(n0 :: ns).getLast (by simp) + 1 + i, ?_, ?_, ?_, ?_⟩
    · rw [hnodes]
      exact List.mem_append_right _
        ((mem_fresh_nodes G.edges _ _).mpr ⟨i, hi, rfl⟩)
    · intro x hx
      have := hstart x hx
      omega
    · rw [hlab _, if_pos ((mem_fresh_nodes G.edges _ _).mpr ⟨i, hi, rfl⟩)]
    · unfold nbrs
      rw [hedges]
      simp only [List.nil_append]
      exact nbrs_fresh G.edges _ i hi hends
  · intro u hu v hv
    unfold adjb
    rw [hedges]
    simp only [List.nil_append]
    exact adjb_fresh_orig G.edges _ u v (hstart u hu) (hstart v hv)

/-- Witness for expand_graph_spec on the single-edge graph. -/
theorem expand_graph_spec_witness :
    ∃ R, expand_graph ⟨[0, 1], [(0, 1)]⟩ (fun _ => 0) = some R ∧
      (∀ n ∈ ([0, 1] : List Nat), n ∈ R.1.nodes ∧ R.2 n = (fun _ => (0 : Int)) n) ∧
      (∀ i, (hi : i < ([(0, 1)] : List (Nat × Nat)).length) → ∃ f,
        f ∈ R.1.nodes ∧ (∀ x ∈ ([0, 1] : List Nat), x < f) ∧
        R.2 f = maxList (([0, 1] : List Nat).map (fun _ => (0 : Int))) + 1 ∧
        nbrs R.1 f = [(([(0, 1)] : List (Nat × Nat)).get ⟨i, hi⟩).1,
          (([(0, 1)] : List (Nat × Nat)).get ⟨i, hi⟩).2]) ∧
      (∀ u ∈ ([0, 1] : List Nat), ∀ v ∈ ([0, 1] : List Nat),
        adjb R.1 u v = false) :=
  expand_graph_spec ⟨[0, 1], [(0, 1)]⟩ (fun _ => 0) (by decide) (by decide)

/-! ### Claim C2 (corrected): behaviour on empty and zero-edge graphs -/

/-- C2 counterexample: on the empty graph both expand_graph and canonicalize
fail (the source raises ValueError from max() on an empty collection) instead
of returning an empty canonical form. -/
theorem empty_graph_canonicalize_fails :
    expand_graph ⟨[], []⟩ (fun _ => 0) = none ∧ canonicalize ⟨[], []⟩ (fun _ => 0) = none :=
  ⟨rfl, rfl⟩

/-- C2 (amended): expansion does not fail on zero-edge graphs with at least
one node; it returns the (sorted) original nodes, no edges, and the original
labels unchanged. -/
theorem expand_graph_zero_edges_ok (G : Graph) (ext : Lab) (hne : G.nodes ≠ [])
    (he : G.edges = []) :
    expand_graph G ext = some (⟨pysort G.nodes, []⟩, ext) := by
  have hp : pysort G.nodes ≠ [] := pysort_ne_nil hne
  unfold expand_graph
  cases h : pysort G.nodes with
  | nil => exact absurd h hp
  | cons n0 ns => simp [he, expand_go, ← h]

/-- Witness for expand_graph_zero_edges_ok at a concrete two-node graph. -/
theorem expand_graph_zero_edges_ok_witness :
    expand_graph ⟨[1, 0], []⟩ (fun _ => 7) = some (⟨pysort [1, 0], []⟩, fun _ => 7) :=
  expand_graph_zero_edges_ok ⟨[1, 0], []⟩ (fun _ => 7) (by decide) rfl

/-! ### Claim C3 (corrected): the bound higher_than_any_internal_label -/

/-- C3 counterexample: for the single-edge graph with all-zero labels, the
engine's bound H equals the (expanded) node count 3 rather than strictly
exceeding it. -/
theorem higher_bound_not_above_node_count :
    (nodewise_instance ⟨[0, 1], [(0, 1)]⟩ (fun _ => 0)).map
        (fun st => (st.Hval, (st.G.nodes.length : Int))) = some (3, 3) ∧
      ¬ ((3 : Int) > 3) :=
  ⟨by decide, by decide⟩

/-- C3 (amended): H = max(node count, max label + 1) is at least the node
count and strictly greater than every label value, and combining an overlay
value with a label below H by combine_key is collision-free. -/
theorem higher_bound_separates (nodes : List Nat) (labels : Lab) :
    (∀ n ∈ nodes, labels n < higher_than_any_internal_label nodes labels) ∧
    ((nodes.length : Int) ≤ higher_than_any_internal_label nodes labels) ∧
    (∀ o1 o2 l1 l2 : Int, 0 ≤ l1 → l1 < higher_than_any_internal_label nodes labels →
      0 ≤ l2 → l2 < higher_than_any_internal_label nodes labels →
      combine_key (higher_than_any_internal_label nodes labels) o1 l1 =
        combine_key (higher_than_any_internal_label nodes labels) o2 l2 →
      o1 = o2 ∧ l1 = l2) := by
  set H := higher_than_any_internal_label nodes labels with hH
  refine ⟨?_, le_max_left _ _, ?_⟩
  · intro n hn
    have h1 : labels n ≤ maxList (nodes.map labels) :=
      le_maxList (List.mem_map_of_mem labels hn)
    have h2 : maxList (nodes.map labels) + 1 ≤ H := le_max_right _ _
    linarith
  · intro o1 o2 l1 l2 h1 h2 h3 h4 heq
    have hHpos : 0 < H := lt_of_le_of_lt h1 h2
    unfold combine_key at heq
    rw [mul_comm o1 H, mul_comm o2 H] at heq
    have hkey : l1 + H * o1 = l2 + H * o2 := by linarith
    have hmod : l1 = l2 := by
      have e1 : (l1 + H * o1) % H = l1 % H := Int.add_mul_emod_self_left l1 H o1
      have e2 : (l2 + H * o2) % H = l2 % H := Int.add_mul_emod_self_left l2 H o2
      have m1 : l1 % H = l1 := Int.emod_eq_of_lt h1 h2
      have m2 : l2 % H = l2 := Int.emod_eq_of_lt h3 h4
      rw [hkey] at e1
      rw [e2, m1, m2] at e1
      exact e1.symm
    refine ⟨?_, hmod⟩
    have h7 : H * o1 = H * o2 := by
      rw [hmod] at hkey
      linarith
    exact mul_left_cancel₀ (ne_of_gt hHpos) h7

/-- Witness for higher_bound_separates at a concrete node list and label map. -/
theorem higher_bound_separates_witness :
    (fun _ => (0 : Int)) 0 < higher_than_any_internal_label [0, 1] (fun _ => 0) :=
  (higher_bound_separates [0, 1] (fun _ => 0)).1 0 (by decide)

/-! ### Claim C4 (corrected): mixed-mode full_comparison -/

/-- C4 counterexample: comparing a plain instance against a nodewise one does
return an ordering verdict (-1, resp. 1 the other way around); the computation
is not aborted. -/
theorem mixed_comparison_returns_verdict :
    full_comparison ⟨false, [], [], [], []⟩ ⟨true, [], [], [], []⟩ = -1 ∧
      full_comparison ⟨true, [], [], [], []⟩ ⟨false, [], [], [], []⟩ = 1 :=
  ⟨rfl, rfl⟩

/-- C4 (amended): comparing a plain instance with a nodewise one yields the
fixed verdict -1 (plain on the left) or 1 (nodewise on the left), after
printing a diagnostic; it does not abort the computation. -/
theorem mixed_comparison_fixed_verdicts (a b : FNRView) :
    (a.nodewise = false → b.nodewise = true → full_comparison a b = -1) ∧
    (a.nodewise = true → b.nodewise = false → full_comparison a b = 1) := by
  constructor
  · intro h1 h2; simp [full_comparison, h1, h2]
  · intro h1 h2; simp [full_comparison, h1, h2]

/-- Witness for mixed_comparison_fixed_verdicts at concrete views. -/
theorem mixed_comparison_fixed_verdicts_witness :
    full_comparison ⟨false, [1], [[0]], [], []⟩ ⟨true, [], [], [], []⟩ = -1 :=
  (mixed_comparison_fixed_verdicts ⟨false, [1], [[0]], [], []⟩ ⟨true, [], [], [], []⟩).1 rfl rfl

/-! ### Claim C8 (corrected): the initial per-node overlays -/

/-- C8 counterexample: on the path 0-1-2 with all external labels 100, the
initial overlay for node 0 maps node 0 to 14 and node 1 to 100, so the
individualized node is not given a value strictly greater than every other
node's overlay value. -/
theorem overlay_not_individualized :
    ((expand_graph ⟨[0, 1, 2], [(0, 1), (1, 2)]⟩ (fun _ => 100)).bind (fun R =>
        (plain_instance R.1 R.2).map (fun basic =>
          (initial_overlay R.1 R.2 basic.internal 0 0,
           initial_overlay R.1 R.2 basic.internal 0 1))))
      = some (14, 100) ∧ ¬ ((100 : Int) < 14) :=
  ⟨by decide, by decide⟩

/-- C8 (amended): the overlay actually used for node p maps every other node
to its external label, and p itself to one more than the maximum of the
discarded head-start map; that value need not exceed the other overlay
values. -/
theorem initial_overlay_values (G : Graph) (ext basic : Lab) (p n : Nat) (h : n ≠ p) :
    initial_overlay G ext basic p n = ext n ∧
    initial_overlay G ext basic p p = maxList (G.nodes.map (head_start G basic p)) + 1 := by
  unfold initial_overlay upd
  simp [h]

/-- Witness for initial_overlay_values at a concrete graph. -/
theorem initial_overlay_values_witness :
    initial_overlay ⟨[0, 1], []⟩ (fun _ => 3) (fun _ => 0) 0 1 = (fun _ => (3 : Int)) 1 ∧
    initial_overlay ⟨[0, 1], []⟩ (fun _ => 3) (fun _ => 0) 0 0 =
      maxList ((⟨[0, 1], []⟩ : Graph).nodes.map (head_start ⟨[0, 1], []⟩ (fun _ => 0) 0)) + 1 :=
  initial_overlay_values ⟨[0, 1], []⟩ (fun _ => 3) (fun _ => 0) 0 1 (by decide)

lemma renum_go_fst :
    ∀ (l : List (Nat × (Int ×ₗ Int))) (prev : Int ×ₗ Int) (next : Int),
      (renum_go l prev next).map Prod.fst = l.map Prod.fst := by
  intro l
  induction l with
  | nil => intro prev next; rfl
  | cons c rest ih =>
    intro prev next
    simp only [renum_go]
    by_cases hc : c.2 = prev
    · rw [if_pos hc]; simp [ih]
    · rw [if_neg hc]; simp [ih]

lemma further_sort_some (l : List (Nat × Int)) (f : Lab) (hne : l ≠ []) :
    ∃ l2, further_sort l f = some l2 := by
  simp only [further_sort]
  cases hs : sortBySnd (l.map (fun p => (p.1, toLex (p.2, f p.1)))) with
  | nil =>
    exfalso
    have hp : List.Perm (sortBySnd (l.map (fun p => (p.1, toLex (p.2, f p.1)))))
        (l.map (fun p => (p.1, toLex (p.2, f p.1)))) :=
      List.perm_insertionSort bySnd _
    rw [hs] at hp
    have h2 := hp.symm.eq_nil
    exact hne (List.map_eq_nil_iff.mp h2)
  | cons c rest => exact ⟨_, rfl⟩

lemma further_sort_fst {l : List (Nat × Int)} {f : Lab} {l2 : List (Nat × Int)}
    (h : further_sort l f = some l2) :
    List.Perm (l2.map Prod.fst) (l.map Prod.fst) ∧ l2.length = l.length := by
  simp only [further_sort] at h
  cases hs : sortBySnd (l.map (fun p => (p.1, toLex (p.2, f p.1)))) with
  | nil =>
    simp only [hs] at h
    exact Option.noConfusion h
  | cons c rest =>
    simp only [hs] at h
    have h2 : l2 = (c.1, 0) :: renum_go rest c.2 0 := (Option.some_inj.mp h).symm
    have hperm : List.Perm (c :: rest) (l.map (fun p => (p.1, toLex (p.2, f p.1)))) := by
      rw [← hs]; exact List.perm_insertionSort bySnd _
    have hfst := hperm.map Prod.fst
    rw [List.map_map] at hfst
    have hsimp : l.map (Prod.fst ∘ fun p => (p.1, toLex (p.2, f p.1))) = l.map Prod.fst := by
      simp [Function.comp_def]
    rw [hsimp] at hfst
    have hfst2 : List.Perm (l2.map Prod.fst) (l.map Prod.fst) := by
      rw [h2]
      simp only [List.map_cons, renum_go_fst]
      exact hfst
    refine ⟨hfst2, ?_⟩
    have h3 := hfst2.length_eq
    simpa using h3

lemma map_eraseIdx {α β : Type} (f : α → β) :
    ∀ (l : List α) (i : Nat), (l.eraseIdx i).map f = (l.map f).eraseIdx i := by
  intro l
  induction l with
  | nil => intro i; rfl
  | cons a rest ih =>
    intro i
    cases i with
    | zero => rfl
    | succ j => simp [List.eraseIdx_cons_succ, ih]

lemma perm_get_eraseIdx {α : Type} :
    ∀ (l : List α) (i : Nat) (h : i < l.length),
      List.Perm l (l.get ⟨i, h⟩ :: l.eraseIdx i) := by
  intro l
  induction l with
  | nil => intro i h; exact absurd h (by simp)
  | cons a rest ih =>
    intro i h
    cases i with
    | zero => simp
    | succ j =>
      have hj : j < rest.length := by simpa using h
      have h2 := (ih j hj).cons a
      have h3 : List.Perm (a :: rest.get ⟨j, hj⟩ :: rest.eraseIdx j)
          (rest.get ⟨j, hj⟩ :: a :: rest.eraseIdx j) := List.Perm.swap _ _ _
      have h4 := h2.trans h3
      simpa [List.eraseIdx_cons_succ] using h4

lemma canon_loop_perm (st : NWState) :
    ∀ (fuel : Nat) (final : List Nat) (ordering : List (Nat × Int)) (out : List Nat),
      ordering.length = fuel →
      canon_loop st fuel final ordering = some out →
      List.Perm out (final ++ ordering.map Prod.fst) := by
  intro fuel
  induction fuel with
  | zero =>
    intro final ordering out hlen h
    have hord : ordering = [] := List.length_eq_zero.mp hlen
    simp only [canon_loop] at h
    rw [hord, ← Option.some_inj.mp h]
    simp
  | succ fuel ih =>
    intro final ordering out hlen h
    simp only [canon_loop] at h
    cases hl : final.getLast? with
    | none => simp only [hl] at h; exact Option.noConfusion h
    | some last =>
      simp only [hl] at h
      cases hfs : further_sort ordering (st.overlays last) with
      | none => simp only [hfs] at h; exact Option.noConfusion h
      | some ord1 =>
        simp only [hfs] at h
        obtain ⟨hfst1, hlen1⟩ := further_sort_fst hfs
        have hlenord1 : ord1.length = fuel + 1 := by rw [hlen1, hlen]
        by_cases hcond : (decide (scan_ties ord1.length (ord1.map Prod.snd) ≥ ord1.length) ||
            tied_at ord1 (scan_ties ord1.length (ord1.map Prod.snd))) = true
        · rw [if_pos hcond] at h
          cases hsv : nodewise_instance st.G0 (fun n =>
              if n ∈ final then (List.indexOf n final : Int)
              else ((ord1.lookup n).getD 0) + (final.length : Int)) with
          | none => simp only [hsv] at h; exact Option.noConfusion h
          | some servant =>
            simp only [hsv] at h
            cases hfs2 : further_sort ord1 servant.internal with
            | none => simp only [hfs2] at h; exact Option.noConfusion h
            | some ord2 =>
              simp only [hfs2] at h
              obtain ⟨hfst2, hlen2⟩ := further_sort_fst hfs2
              have hlenord2 : ord2.length = fuel + 1 := by rw [hlen2, hlenord1]
              cases ord2 with
              | nil => exact absurd hlenord2 (by simp)
              | cons c2 t2 =>
                simp only [List.getElem?_cons_zero] at h
                have hperm2 : List.Perm (c2.1 :: t2.map Prod.fst) (ordering.map Prod.fst) := by
                  have := hfst2.trans hfst1
                  simpa using this
                by_cases hlong : (c2 :: t2).length > 1
                · rw [if_pos hlong] at h
                  have hlent2 : t2.length = fuel := by simpa using hlenord2
                  have hrec := ih (final ++ [c2.1]) t2 out hlent2 (by simpa using h)
                  refine hrec.trans ?_
                  rw [List.append_assoc]
                  refine List.Perm.append_left final ?_
                  simpa using hperm2
                · rw [if_neg hlong] at h
                  have hfuel0 : fuel = 0 := by
                    simp only [List.length_cons] at hlenord2
                    simp only [List.length_cons] at hlong
                    omega
                  rw [hfuel0] at h
                  simp only [canon_loop] at h
                  rw [← Option.some_inj.mp h]
                  have ht2nil : t2 = [] := by
                    simp only [List.length_cons] at hlenord2
                    rw [hfuel0] at hlenord2
                    exact List.length_eq_zero.mp (by omega)
                  rw [ht2nil] at hperm2
                  have hp2 : List.Perm [c2.1] (ordering.map Prod.fst) := by
                    simpa using hperm2
                  exact List.Perm.append_left final hp2
        · rw [if_neg hcond] at h
          have hsel : scan_ties ord1.length (ord1.map Prod.snd) < ord1.length := by
            by_contra hge2
            apply hcond
            have hge3 : scan_ties ord1.length (ord1.map Prod.snd) ≥ ord1.length := by omega
            simp [hge3]
          cases hget : ord1[scan_ties ord1.length (ord1.map Prod.snd)]? with
          | none => simp only [hget] at h; exact Option.noConfusion h
          | some chosen =>
            simp only [hget] at h
            obtain ⟨hsel2, hgetel⟩ := List.getElem?_eq_some.mp hget
            have hchosen : chosen = ord1.get ⟨scan_ties ord1.length (ord1.map Prod.snd), hsel⟩ := by
              rw [← hgetel]; simp [List.get_eq_getElem]
            have hperm3 : List.Perm (chosen.1 :: (ord1.eraseIdx
                (scan_ties ord1.length (ord1.map Prod.snd))).map Prod.fst)
                (ordering.map Prod.fst) := by
              refine List.Perm.trans ?_ hfst1
              rw [map_eraseIdx]
              have h5 := perm_get_eraseIdx (ord1.map Prod.fst)
                (scan_ties ord1.length (ord1.map Prod.snd)) (by simpa using hsel)
              have h6 : (ord1.map Prod.fst).get
                  ⟨scan_ties ord1.length (ord1.map Prod.snd), by simpa using hsel⟩ =
                  chosen.1 := by
                rw [hchosen]
                simp [List.get_eq_getElem]
              rw [h6] at h5
              exact h5.symm
            by_cases hlong : ord1.length > 1
            · rw [if_pos hlong] at h
              have hlene : (ord1.eraseIdx (scan_ties ord1.length (ord1.map Prod.snd))).length =
                  fuel := by
                rw [List.length_eraseIdx]
                rw [if_pos hsel, hlenord1]
                omega
              have hrec := ih (final ++ [chosen.1]) _ out hlene h
              refine hrec.trans ?_
              rw [List.append_assoc]
              refine List.Perm.append_left final ?_
              simpa using hperm3
            · rw [if_neg hlong] at h
              have hfuel0 : fuel = 0 := by omega
              rw [hfuel0] at h
              simp only [canon_loop] at h
              rw [← Option.some_inj.mp h]
              have hord1len : ord1.length = 1 := by omega
              have herasenil : (ord1.eraseIdx
                  (scan_ties ord1.length (ord1.map Prod.snd))).length = 0 := by
                rw [List.length_eraseIdx, if_pos hsel, hord1len]
              have hpe : (ord1.eraseIdx (scan_ties ord1.length (ord1.map Prod.snd))).map
                  Prod.fst = [] := by
                rw [List.map_eq_nil_iff]
                exact List.length_eq_zero.mp herasenil
              rw [hpe] at hperm3
              have hp3 : List.Perm [chosen.1] (ordering.map Prod.fst) := by
                simpa using hperm3
              exact List.Perm.append_left final hp3

lemma expand_graph_keeps_labels {G : Graph} {ext : Lab} {R : Graph × Lab}
    (h : expand_graph G ext = some R) : ∀ n ∈ G.nodes, R.2 n = ext n := by
  unfold expand_graph at h
  cases hps : pysort G.nodes with
  | nil => rw [hps] at h; exact Option.noConfusion h
  | cons n0 ns =>
    rw [hps] at h
    have hR : R = expand_go (maxList (G.nodes.map ext) + 1) G.edges
        ((n0 :: ns).getLast (by simp)) ⟨n0 :: ns, []⟩ ext := (Option.some_inj.mp h).symm
    intro n hn
    have hsorted : List.Sorted (· ≤ ·) (n0 :: ns) := by
      rw [← hps]; exact List.sorted_insertionSort _ G.nodes
    have hmem2 : n ∈ n0 :: ns := by
      rw [← hps]
      exact (List.perm_insertionSort _ G.nodes).symm.mem_iff.mp hn
    have hle : n ≤ (n0 :: ns).getLast (by simp) :=
      sorted_le_getLast hsorted (by simp) n hmem2
    obtain ⟨_, _, hlab⟩ := expand_go_graph (maxList (G.nodes.map ext) + 1) G.edges
      ((n0 :: ns).getLast (by simp)) ⟨n0 :: ns, []⟩ ext
    rw [hR, hlab n, if_neg]
    intro hf
    exact absurd hle (by have := fresh_nodes_gt hf; omega)

lemma nodewise_instance_fields {G0 : Graph} {ext0 : Lab} {st : NWState}
    (h : nodewise_instance G0 ext0 = some st) :
    st.G0 = G0 ∧ st.initial_nodes = G0.nodes ∧ ∀ n ∈ G0.nodes, st.ext n = ext0 n := by
  simp only [nodewise_instance] at h
  cases hex : expand_graph G0 ext0 with
  | none => simp only [hex] at h; exact Option.noConfusion h
  | some R =>
    simp only [hex] at h
    by_cases hnil : R.1.nodes = []
    · rw [if_pos hnil] at h; exact Option.noConfusion h
    · rw [if_neg hnil] at h
      cases hpi : plain_instance R.1 R.2 with
      | none => simp only [hpi] at h; exact Option.noConfusion h
      | some basic =>
        simp only [hpi] at h
        cases hnl : nodewise_loop R.1 (higher_than_any_internal_label R.1.nodes R.2)
            (R.1.nodes.length + 1) R.2 (fun p => initial_overlay R.1 R.2 basic.internal p) with
        | none => simp only [hnl] at h; exact Option.noConfusion h
        | some r =>
          simp only [hnl] at h
          have hst := (Option.some_inj.mp h).symm
          rw [hst]
          exact ⟨rfl, rfl, fun n hn => expand_graph_keeps_labels hex n hn⟩

/-! ### Claim C9 (confirmed): the canonical form respects the labels -/

/-- C9: whenever canonicalization succeeds, the final node order is a
permutation of the original node list, and the multiset of ordered labels in
the canonical form equals the multiset of external labels of the input's
nodes. -/
theorem canonical_form_respects_labels (G0 : Graph) (ext0 : Lab) (cf : CanForm)
    (h : canonicalize G0 ext0 = some cf) :
    List.Perm cf.order G0.nodes ∧
    (cf.labels : Multiset Int) = ((G0.nodes.map ext0 : List Int) : Multiset Int) := by
  simp only [canonicalize] at h
  cases hni : nodewise_instance G0 ext0 with
  | none => simp only [hni] at h; exact Option.noConfusion h
  | some st =>
    simp only [hni] at h
    obtain ⟨hG0, hinit, hext⟩ := nodewise_instance_fields hni
    simp only [set_canonical_form] at h
    cases hfs : further_sort (st.initial_nodes.map (fun n => (n, 0))) st.internal with
    | none => simp only [hfs] at h; exact Option.noConfusion h
    | some ord1 =>
      simp only [hfs] at h
      obtain ⟨hfst1, hlen1⟩ := further_sort_fst hfs
      have hfst1b : List.Perm (ord1.map Prod.fst) st.initial_nodes := by
        refine hfst1.trans ?_
        rw [List.map_map]
        simp [Function.comp_def]
      cases ord1 with
      | nil => exact Option.noConfusion h
      | cons c rest =>
        cases hcl : canon_loop st (st.initial_nodes.length - 1) [c.1] rest with
        | none => simp only [hcl] at h; exact Option.noConfusion h
        | some final =>
          simp only [hcl] at h
          have hcf : cf = ⟨final, final.map st.ext, matrix_rows st.G0 final⟩ :=
            (Option.some_inj.mp h).symm
          have hlenrest : rest.length = st.initial_nodes.length - 1 := by
            have : (c :: rest).length = (st.initial_nodes.map (fun n => (n, (0 : Int)))).length :=
              hlen1
            simp only [List.length_cons, List.length_map] at this
            omega
          have hperm := canon_loop_perm st (st.initial_nodes.length - 1) [c.1] rest final
            hlenrest hcl
          have hfinal : List.Perm final st.initial_nodes := by
            refine hperm.trans ?_
            have : ([c.1] ++ rest.map Prod.fst) = (c :: rest).map Prod.fst := by simp
            rw [this]
            exact hfst1b
          have horder : List.Perm cf.order G0.nodes := by
            rw [hcf, ← hinit]
            exact hfinal
          refine ⟨horder, ?_⟩
          have hmap : List.Perm (final.map st.ext) (st.initial_nodes.map st.ext) :=
            hfinal.map st.ext
          have hcongr : st.initial_nodes.map st.ext = G0.nodes.map ext0 := by
            rw [hinit]
            exact List.map_congr_left hext
          rw [hcf]
          simp only [Multiset.coe_eq_coe]
          rw [← hcongr]
          exact hmap

/-- Witness for canonical_form_respects_labels on the one-node graph. -/
theorem canonical_form_respects_labels_witness :
    List.Perm (CanForm.mk [0] [5] [[]]).order (Graph.mk [0] []).nodes ∧
    ((CanForm.mk [0] [5] [[]]).labels : Multiset Int) =
      (((Graph.mk [0] []).nodes.map (fun _ => (5 : Int)) : List Int) : Multiset Int) :=
  canonical_form_respects_labels ⟨[0], []⟩ (fun _ => 5) ⟨[0], [5], [[]]⟩ (by decide)

set_option maxHeartbeats 8000000 in
/-- C1: isomorphism invariance fails on the code. The graph with node list
[0,1,2,3,4] and edge list [(1,3)], and its image under the label-preserving
permutation 0 ↦ 2, 1 ↦ 0, 2 ↦ 4, 3 ↦ 1, 4 ↦ 3 presented with node list
[1,2,0,4,3] and edge list [(0,1)], with every external label equal to 14,
receive different upper-triangular adjacency matrices from canonicalize:
the single edge lands at positions 3-4 of the canonical order in the first
graph and at positions 0-1 in the second. (With all labels 14, every
permutation is label-preserving; the first two conjuncts check that the
second presentation is the image of the first under this permutation.)
The root cause is the overlay construction of __init__ lines 27-44: the
individualization value max_value + 1 is computed from the discarded
head-start map, so when an external label equals it, the individualized
node's overlay value is not unique and ties fall back to incidental node
order. -/
theorem canonicalize_not_isomorphism_invariant :
    List.Perm (Graph.mk [1,2,0,4,3] [(0,1)]).nodes
      ((Graph.mk [0,1,2,3,4] [(1,3)]).nodes.map (fun n => List.getD [2,0,4,1,3] n 0)) ∧
    (Graph.mk [1,2,0,4,3] [(0,1)]).edges =
      (Graph.mk [0,1,2,3,4] [(1,3)]).edges.map
        (fun p => (List.getD [2,0,4,1,3] p.1 0, List.getD [2,0,4,1,3] p.2 0)) ∧
    (canonicalize ⟨[0,1,2,3,4], [(1,3)]⟩ (fun _ => 14)).map CanForm.matrix ≠
      (canonicalize ⟨[1,2,0,4,3], [(0,1)]⟩ (fun _ => 14)).map CanForm.matrix := by
  refine ⟨by decide, by decide, ?_⟩
  decide

end FNR
